import Mathlib

/-!
Verification of the multi-tier FAQ matching engine
(`src/faq/enhanced_faq_manager.py`, class `EnhancedFAQManager`).

Text is modelled as `List Char`; Python's `str.lower`, `str.strip` and
`re.findall(r'\w+', ...)` are modelled by `lower`, `strip` and `words`
over ASCII characters.  Python floats used for scores are modelled by `ℚ`.
The stdlib primitive `difflib.SequenceMatcher(None, a, b).ratio()` is an
external library call; every definition that uses it is parameterised by an
arbitrary function `ratioFn : Str → Str → ℚ`, so theorems quantify over it.
A Python dict is modelled as a total function with `[]` for absent keys when
only lookups matter (`search_index`), and as an insertion-ordered association
list where iteration order matters (`faq_scores`).
-/

/-- Python strings, modelled as lists of characters. -/
abbrev Str := List Char

/-- Convenience conversion from a Lean string literal. -/
def str (s : String) : Str := s.data

/-- Python `str.lower()` (ASCII fragment). -/
def lower (s : Str) : Str := s.map Char.toLower

/-- Python `str.strip()`: drop whitespace from both ends. -/
def strip (s : Str) : Str :=
  ((s.dropWhile Char.isWhitespace).reverse.dropWhile Char.isWhitespace).reverse

/-- A regex `\w` character (ASCII fragment): alphanumeric or underscore. -/
def isWordChar (c : Char) : Bool := c.isAlphanum || c == '_'

/-- Helper for `words`: `acc` holds the current (reversed) run of word
characters. -/
def wordsAux : Str → Str → List Str
  | acc, [] => if acc.isEmpty then [] else [acc.reverse]
  | acc, c :: cs =>
    if isWordChar c then wordsAux (c :: acc) cs
    else if acc.isEmpty then wordsAux [] cs
    else acc.reverse :: wordsAux [] cs

/-- Python `re.findall(r'\w+', s)`: the maximal runs of word characters. -/
def words (s : Str) : List Str := wordsAux [] s

/-- One FAQ record: `{"id": ..., "question": ..., "answer": ..., "keywords": [...]}`. -/
structure FaqEntry where
  id : ℕ
  question : Str
  answer : Str
  keywords : List Str
deriving DecidableEq, Repr

/-- The manager state: the entry list `faq_data` and the derived
`search_index` (token ↦ posting list of entry ids, `[]` when absent). -/
structure EnhancedFAQManager where
  faqData : List FaqEntry
  searchIndex : Str → List ℕ

/-- Model of `self.search_index[tok].append(i)` (creating the key if absent). -/
def addToken (idx : Str → List ℕ) (tok : Str) (i : ℕ) : Str → List ℕ :=
  fun t => if t = tok then idx t ++ [i] else idx t

/-- Same, but guarded by `if faq["id"] not in self.search_index[word]`. -/
def addTokenNoDup (idx : Str → List ℕ) (tok : Str) (i : ℕ) : Str → List ℕ :=
  fun t => if t = tok then (if i ∈ idx tok then idx tok else idx tok ++ [i]) else idx t

/-- Indexing of one entry inside `_build_search_index`: every keyword is
indexed lowercased as a whole token, then every word of the lowercased
question of length > 2 is indexed (without duplicating the id). -/
def indexEntry (idx : Str → List ℕ) (e : FaqEntry) : Str → List ℕ :=
  let idx1 := e.keywords.foldl (fun a kw => addToken a (lower kw) e.id) idx
  (words (lower e.question)).foldl
    (fun a w => if 2 < w.length then addTokenNoDup a w e.id else a) idx1

/-- Model of `_build_search_index`: rebuild the inverted index from scratch. -/
def buildSearchIndex (entries : List FaqEntry) : Str → List ℕ :=
  entries.foldl indexEntry (fun _ => [])

/-- Model of `_find_exact_match`: first entry whose lowercased question has
the query as a substring. -/
def findExactMatch (entries : List FaqEntry) (q : Str) : Option FaqEntry :=
  entries.find? (fun e => decide (q <:+: lower e.question))

/-- One posting hit inside `_find_by_keywords`:
`faq_scores.setdefault(i, 0); faq_scores[i] += 1` on an insertion-ordered
association list. -/
def updateScores (scores : List (ℕ × ℕ)) (i : ℕ) : List (ℕ × ℕ) :=
  if scores.any (fun p => p.1 == i) then
    scores.map (fun p => if p.1 = i then (p.1, p.2 + 1) else p)
  else scores ++ [(i, 1)]

/-- The score-accumulation loop of `_find_by_keywords`: for each query word
present in the index, bump the count of every id on its posting list
(an absent word has posting list `[]` and contributes nothing). -/
def accumulateScores (idx : Str → List ℕ) (queryWords : List Str) : List (ℕ × ℕ) :=
  queryWords.foldl (fun sc w => (idx w).foldl updateScores sc) []

/-- Fold step of Python `max(..., key=...)`: keep the current best on ties,
replace only on a strictly larger value (first maximum wins). -/
def maxFrom (p : ℕ × ℕ) (l : List (ℕ × ℕ)) : ℕ × ℕ :=
  l.foldl (fun best q => if best.2 < q.2 then q else best) p

/-- Model of `max(faq_scores, key=faq_scores.get)` paired with its value,
`none` on an empty dict. -/
def maxByValue : List (ℕ × ℕ) → Option (ℕ × ℕ)
  | [] => none
  | p :: ps => some (maxFrom p ps)

/-- Model of `_get_faq_by_id`: first entry with the given id. -/
def getFaqById (entries : List FaqEntry) (i : ℕ) : Option FaqEntry :=
  entries.find? (fun e => e.id == i)

/-- Model of `_find_by_keywords`: accumulate per-entry hit counts over the
index, take the first key with the maximal count, accept when that count
is ≥ 1. -/
def findByKeywords (entries : List FaqEntry) (idx : Str → List ℕ)
    (queryWords : List Str) : Option FaqEntry :=
  if queryWords.isEmpty then none
  else
    match maxByValue (accumulateScores idx queryWords) with
    | none => none
    | some best => if 1 ≤ best.2 then getFaqById entries best.1 else none

/-- The six-way disjunction tested inside `_calculate_keyword_similarity`,
in source order: equality, containment both ways, `startswith` both ways,
similarity above 0.8. -/
def kwMatchB (ratioFn : Str → Str → ℚ) (kl w : Str) : Bool :=
  decide (kl = w) || decide (kl <:+: w) || decide (w <:+: kl) ||
  decide (w <+: kl) || decide (kl <+: w) || decide ((8 : ℚ)/10 < ratioFn kl w)

/-- Model of `_calculate_keyword_similarity`: fraction of keywords that match
at least one query word; `0.0` when either list is empty. -/
def calculateKeywordSimilarity (ratioFn : Str → Str → ℚ)
    (queryWords keywords : List Str) : ℚ :=
  if keywords.isEmpty || queryWords.isEmpty then 0
  else
    let matchCount := keywords.countP
      (fun kw => queryWords.any (fun w => kwMatchB ratioFn (lower kw) w))
    if 0 < keywords.length then (matchCount : ℚ) / (keywords.length : ℚ) else 0

/-- The Tier-3 combined score: `question_score * 0.6 + keyword_score * 0.4`. -/
def totalScore (ratioFn : Str → Str → ℚ) (q : Str) (queryWords : List Str)
    (e : FaqEntry) : ℚ :=
  ratioFn q (lower e.question) * (6/10) +
    calculateKeywordSimilarity ratioFn queryWords e.keywords * (4/10)

/-- Loop body of `_find_by_similarity`: replace the best candidate when the
score strictly improves and exceeds the 0.3 threshold. -/
def simStep (ratioFn : Str → Str → ℚ) (q : Str) (queryWords : List Str)
    (best : Option FaqEntry × ℚ) (e : FaqEntry) : Option FaqEntry × ℚ :=
  let t := totalScore ratioFn q queryWords e
  if best.2 < t ∧ 3/10 < t then (some e, t) else best

/-- Model of `_find_by_similarity`: scan all entries, return the tracked
best match. -/
def findBySimilarity (ratioFn : Str → Str → ℚ) (entries : List FaqEntry)
    (q : Str) (queryWords : List Str) : Option FaqEntry :=
  (entries.foldl (simStep ratioFn q queryWords) (none, 0)).1

/-- Model of `search_faq`: guard, normalize, then try the three tiers in
order. -/
def searchFaq (ratioFn : Str → Str → ℚ) (m : EnhancedFAQManager)
    (query : Str) : Option FaqEntry :=
  if query.isEmpty || m.faqData.isEmpty then none
  else
    let queryLower := strip (lower query)
    let queryWords := words queryLower
    match findExactMatch m.faqData queryLower with
    | some e => some e
    | none =>
      match findByKeywords m.faqData m.searchIndex queryWords with
      | some e => some e
      | none => findBySimilarity ratioFn m.faqData queryLower queryWords

/-- Comparison used by `similarities.sort(key=lambda x: x[1], reverse=True)`:
a stable sort placing larger scores first. -/
def scoreGE (a b : FaqEntry × ℚ) : Prop := b.2 ≤ a.2

instance : DecidableRel scoreGE := fun a b => inferInstanceAs (Decidable (b.2 ≤ a.2))

instance : IsTotal (FaqEntry × ℚ) scoreGE := ⟨fun a b => (le_total b.2 a.2).imp id id⟩

instance : IsTrans (FaqEntry × ℚ) scoreGE :=
  ⟨fun _ _ _ h1 h2 => le_trans h2 h1⟩

/-- Loop body of `search_similar_questions`: append `(faq, total_score)`
when the score exceeds the 0.1 floor. -/
def simPair (ratioFn : Str → Str → ℚ) (queryLower : Str)
    (queryWords : List Str) (e : FaqEntry) : Option (FaqEntry × ℚ) :=
  let t := totalScore ratioFn queryLower queryWords e
  if 1/10 < t then some (e, t) else none

/-- Model of `search_similar_questions`: keep entries scoring above 0.1,
sort stably by descending score, return the first `limit` entries.  Note
the query is lowercased but not stripped here. -/
def searchSimilarQuestions (ratioFn : Str → Str → ℚ) (entries : List FaqEntry)
    (query : Str) (limit : ℕ) : List FaqEntry :=
  let queryLower := lower query
  let queryWords := words queryLower
  let similarities := entries.filterMap (simPair ratioFn queryLower queryWords)
  ((similarities.insertionSort scoreGE).take limit).map Prod.fst

/-- Model of `add_faq` (in-memory part): append a fresh entry with
`id = max(ids, default 0) + 1`, rebuild the index, report success. -/
def addFaq (m : EnhancedFAQManager) (question answer : Str)
    (keywords : Option (List Str)) : Bool × EnhancedFAQManager :=
  let newId := (m.faqData.map FaqEntry.id).foldl max 0 + 1
  let newFaq : FaqEntry := ⟨newId, question, answer, keywords.getD []⟩
  let data := m.faqData ++ [newFaq]
  (true, ⟨data, buildSearchIndex data⟩)

/-- Model of `_save_faq`: the file write may fail (`writeOutcome = .error msg`), but
the `except` clause only logs the exception; nothing is reported to the
caller in either case. -/
def saveFaq (writeOutcome : Except String Unit) : Option String :=
  match writeOutcome with
  | Except.ok _ => none
  | Except.error _ => none

/-- Model of `add_faq` including its `_save_faq()` call: the returned flag and the
reported persistence error are independent of the write outcome. -/
def addFaqSave (m : EnhancedFAQManager) (question answer : Str)
    (keywords : Option (List Str)) (writeOutcome : Except String Unit) :
    Bool × EnhancedFAQManager × Option String :=
  let r := addFaq m question answer keywords
  (r.1, r.2, saveFaq writeOutcome)

/-- Statement `if question: faq["question"] = question` of `update_faq`:
the field changes only for a supplied (non-`None`), non-empty value. -/
def setQuestion (question : Option Str) (e : FaqEntry) : FaqEntry :=
  match question with
  | some q => if q.isEmpty then e else { e with question := q }
  | none => e

/-- Statement `if answer: faq["answer"] = answer` of `update_faq`. -/
def setAnswer (answer : Option Str) (e : FaqEntry) : FaqEntry :=
  match answer with
  | some a => if a.isEmpty then e else { e with answer := a }
  | none => e

/-- Statement `if keywords: faq["keywords"] = keywords` of `update_faq`. -/
def setKeywords (keywords : Option (List Str)) (e : FaqEntry) : FaqEntry :=
  match keywords with
  | some k => if k.isEmpty then e else { e with keywords := k }
  | none => e

/-- Field assignment part of `update_faq`: the three guarded assignments in
source order. -/
def applyUpdate (question answer : Option Str) (keywords : Option (List Str))
    (e : FaqEntry) : FaqEntry :=
  setKeywords keywords (setAnswer answer (setQuestion question e))

/-- In-place mutation through the reference returned by `_get_faq_by_id`:
rewrite the first entry carrying the id. -/
def updateFirstById : List FaqEntry → ℕ → (FaqEntry → FaqEntry) → List FaqEntry
  | [], _, _ => []
  | e :: es, i, f => if e.id = i then f e :: es else e :: updateFirstById es i f

/-- Model of `update_faq`: partial update of an existing entry, then index
rebuild. -/
def updateFaq (m : EnhancedFAQManager) (faqId : ℕ) (question answer : Option Str)
    (keywords : Option (List Str)) : Bool × EnhancedFAQManager :=
  match getFaqById m.faqData faqId with
  | none => (false, m)
  | some _ =>
    let data := updateFirstById m.faqData faqId (applyUpdate question answer keywords)
    (true, ⟨data, buildSearchIndex data⟩)

/-- Model of `delete_faq`: drop every entry with the id, then index
rebuild. -/
def deleteFaq (m : EnhancedFAQManager) (faqId : ℕ) : Bool × EnhancedFAQManager :=
  match getFaqById m.faqData faqId with
  | none => (false, m)
  | some _ =>
    let data := m.faqData.filter (fun e => !(e.id == faqId))
    (true, ⟨data, buildSearchIndex data⟩)

/-- A degenerate similarity primitive used to instantiate `ratioFn` in
concrete evaluations that never depend on it. -/
def ratioZero : Str → Str → ℚ := fun _ _ => 0

/-! ### Concrete fixtures used by counterexamples and witnesses -/

/-- Entry 1 of the two-entry fixture store. -/
def entAlpha : FaqEntry := ⟨1, str ("xaaa"), str ("a1"), [str ("alpha")]⟩

/-- Entry 2 of the two-entry fixture store. -/
def entBeta : FaqEntry := ⟨2, str ("ybbb"), str ("a2"), [str ("beta")]⟩

/-- A two-entry manager with disjoint keywords. -/
def mgrAB : EnhancedFAQManager := ⟨[entAlpha, entBeta], buildSearchIndex [entAlpha, entBeta]⟩

/-- An entry whose question contains the next entry's question. -/
def entLong : FaqEntry := ⟨1, str ("xabc"), str ("a"), []⟩

/-- An entry whose question is a substring of the previous one's. -/
def entShort : FaqEntry := ⟨2, str ("ab"), str ("b"), []⟩

/-- Manager where one question contains the other. -/
def mgrSub : EnhancedFAQManager := ⟨[entLong, entShort], buildSearchIndex [entLong, entShort]⟩

/-- An entry with a two-letter keyword. -/
def entKw2 : FaqEntry := ⟨1, str ("xyz"), str ("a"), [str ("ab")]⟩

/-- Manager holding only the two-letter-keyword entry. -/
def mgrKw2 : EnhancedFAQManager := ⟨[entKw2], buildSearchIndex [entKw2]⟩

/-- A single entry whose keyword equals a test query word. -/
def entHello : FaqEntry := ⟨3, str ("qqq"), str ("a"), [str ("hello")]⟩

/-! ### Generic helper lemmas -/

/-- Run `find?` over a decomposed list whose head part rejects the predicate. -/
lemma find?_first {α} (p : α → Bool) (l1 : List α) (a : α) (l2 : List α)
    (h1 : ∀ x ∈ l1, p x = false) (ha : p a = true) :
    List.find? p (l1 ++ a :: l2) = some a := by
  induction l1 with
  | nil => simpa using List.find?_cons_of_pos l2 ha
  | cons y ys ih =>
      rw [List.cons_append,
        List.find?_cons_of_neg _ (by simp [h1 y (List.mem_cons_self y ys)])]
      exact ih (fun x hx => h1 x (List.mem_cons_of_mem y hx))

/-- Whitespace characters are fixed by `Char.toLower`. -/
lemma toLower_of_whitespace {c : Char} (h : c.isWhitespace = true) : c.toLower = c := by
  have h' : ((c = ' ' ∨ c = '\t') ∨ c = '\r') ∨ c = '\n' := by
    simpa [Char.isWhitespace] using h
  rcases h' with ((h' | h') | h') | h' <;> subst h' <;> decide

/-- Stripping a whitespace-only string yields the empty string. -/
lemma strip_eq_nil_of_whitespace {s : Str} (h : ∀ c ∈ s, c.isWhitespace = true) :
    strip s = [] := by
  have h1 : s.dropWhile Char.isWhitespace = [] := by
    rw [List.dropWhile_eq_nil_iff]
    exact h
  simp [strip, h1]

/-- Lowercasing preserves being whitespace-only. -/
lemma whitespace_lower {s : Str} (h : ∀ c ∈ s, c.isWhitespace = true) :
    ∀ c ∈ lower s, c.isWhitespace = true := by
  intro c hc
  rcases List.mem_map.1 hc with ⟨d, hd, rfl⟩
  rw [toLower_of_whitespace (h d hd)]
  exact h d hd

/-- The empty string is a substring of every string. -/
lemma nil_substr (l : Str) : ([] : Str) <:+: l := ⟨[], l, by simp⟩

/-! ### C2 -/

/-- C2 (amended): `search` is total and returns `none` for the empty query
and for an empty store; but a nonempty whitespace-only query on a nonempty
store is truthy, strips to the empty string — a substring of every
question — so Tier 1 returns the first stored entry instead of `none`. -/
theorem searchFaq_empty_whitespace (ratioFn : Str → Str → ℚ)
    (m : EnhancedFAQManager) (q : Str) :
    (searchFaq ratioFn m [] = none) ∧
    (m.faqData = [] → searchFaq ratioFn m q = none) ∧
    (∀ e es, q ≠ [] → (∀ c ∈ q, c.isWhitespace = true) → m.faqData = e :: es →
      searchFaq ratioFn m q = some e) := by
  refine ⟨by simp [searchFaq], fun h => by simp [searchFaq, h], ?_⟩
  intro e es hq hw hdata
  have hqe : q.isEmpty = false := by
    cases q with
    | nil => exact absurd rfl hq
    | cons c cs => rfl
  have hstrip : strip (lower q) = [] :=
    strip_eq_nil_of_whitespace (whitespace_lower hw)
  have hexact : findExactMatch m.faqData (strip (lower q)) = some e := by
    rw [hdata, hstrip]
    exact List.find?_cons_of_pos es (by simp [nil_substr])
  simp only [searchFaq, hqe, hdata, List.isEmpty_cons, Bool.or_false, if_false,
    Bool.false_eq_true]
  rw [hdata] at hexact
  rw [hexact]

/-- C2 (counterexample): on a nonempty store the whitespace-only query
`"   "` does not return `none`: Tier 1 returns the first entry. -/
theorem searchFaq_whitespace_counterexample :
    (∀ c ∈ str ("   "), c.isWhitespace = true) ∧ mgrAB.faqData ≠ [] ∧
    searchFaq ratioZero mgrAB (str ("   ")) = some entAlpha := by decide

/-- C2 witness: the amended theorem evaluated on a concrete store and query. -/
theorem searchFaq_empty_whitespace_witness :
    searchFaq ratioZero mgrAB (str (" ")) = some entAlpha :=
  (searchFaq_empty_whitespace ratioZero mgrAB (str (" "))).2.2 entAlpha [entBeta]
    (by decide) (by decide) rfl

/-! ### C5 -/

/-- C5 (amended): whenever the trimmed lowercased query is a substring of
some entry's lowercased question, `search` returns the first such entry in
store order via Tier 1; in particular `search(e.question)` returns `e`
exactly when no earlier entry's question contains `e`'s question. -/
theorem searchFaq_exact_first (ratioFn : Str → Str → ℚ) (m : EnhancedFAQManager)
    (q : Str) (hq : q ≠ []) (l1 : List FaqEntry) (e : FaqEntry) (l2 : List FaqEntry)
    (hdata : m.faqData = l1 ++ e :: l2)
    (hsub : strip (lower q) <:+: lower e.question)
    (hfirst : ∀ x ∈ l1, ¬ (strip (lower q) <:+: lower x.question)) :
    searchFaq ratioFn m q = some e := by
  have hqe : q.isEmpty = false := by
    cases q with
    | nil => exact absurd rfl hq
    | cons c cs => rfl
  have hexact : findExactMatch m.faqData (strip (lower q)) = some e := by
    rw [hdata]
    exact find?_first _ l1 e l2 (fun x hx => by simp [hfirst x hx]) (by simp [hsub])
  have hne : m.faqData.isEmpty = false := by
    rw [hdata]; cases l1 <;> rfl
  simp only [searchFaq, hqe, hne, Bool.or_self, if_false, Bool.false_eq_true]
  rw [hexact]

/-- C5 (counterexample): entry 2's question `"ab"` is a substring of entry
1's question `"xabc"`, so searching entry 2's own question returns entry 1,
not entry 2. -/
theorem searchFaq_own_question_counterexample :
    entShort ∈ mgrSub.faqData ∧
    searchFaq ratioZero mgrSub entShort.question = some entLong ∧
    entLong ≠ entShort := by decide

/-- C5 witness: the amended theorem evaluated on a concrete store and query. -/
theorem searchFaq_exact_first_witness :
    searchFaq ratioZero mgrAB (str ("xaaa")) = some entAlpha :=
  searchFaq_exact_first ratioZero mgrAB (str ("xaaa")) (by decide) [] entAlpha
    [entBeta] rfl (by decide) (fun x hx => absurd hx (List.not_mem_nil x))

/-! ### C8 -/

/-- C8 (amended): `_save_faq` catches a failing write internally (it only
logs), reporting nothing to its caller, and `add_faq` still reports plain
success with the entry appended to the in-memory store, whatever the write
outcome; the in-memory store stays authoritative. -/
theorem saveFaq_swallows (m : EnhancedFAQManager) (q a : Str)
    (k : Option (List Str)) (w : Except String Unit) :
    saveFaq w = none ∧
    (addFaqSave m q a k w).1 = true ∧
    (addFaqSave m q a k w).2.2 = none ∧
    (addFaqSave m q a k w).2.1.faqData =
      m.faqData ++ [⟨(m.faqData.map FaqEntry.id).foldl max 0 + 1, q, a, k.getD []⟩] := by
  have hs : saveFaq w = none := by cases w <;> rfl
  exact ⟨hs, rfl, hs, rfl⟩

/-- C8 (counterexample): a failing write is not reported to the caller:
`_save_faq` yields no error and `add_faq` still reports plain success. -/
theorem saveFaq_counterexample :
    saveFaq (Except.error ("disk full")) = none ∧
    (addFaqSave mgrAB (str ("q")) (str ("a")) none (Except.error ("disk full"))).1 = true ∧
    (addFaqSave mgrAB (str ("q")) (str ("a")) none (Except.error ("disk full"))).2.2 = none :=
  ⟨rfl, rfl, rfl⟩

/-! ### C10 -/

/-- Each field of the entry after the question assignment. -/
lemma setQuestion_fields (q : Option Str) (e : FaqEntry) :
    (setQuestion q e).id = e.id ∧ (setQuestion q e).answer = e.answer ∧
    (setQuestion q e).keywords = e.keywords := by
  cases q with
  | none => exact ⟨rfl, rfl, rfl⟩
  | some s => cases hs : s.isEmpty <;> simp [setQuestion, hs]

/-- Each untouched field of the entry after the answer assignment. -/
lemma setAnswer_fields (a : Option Str) (e : FaqEntry) :
    (setAnswer a e).id = e.id ∧ (setAnswer a e).question = e.question ∧
    (setAnswer a e).keywords = e.keywords := by
  cases a with
  | none => exact ⟨rfl, rfl, rfl⟩
  | some s => cases hs : s.isEmpty <;> simp [setAnswer, hs]

/-- Each untouched field of the entry after the keywords assignment. -/
lemma setKeywords_fields (k : Option (List Str)) (e : FaqEntry) :
    (setKeywords k e).id = e.id ∧ (setKeywords k e).question = e.question ∧
    (setKeywords k e).answer = e.answer := by
  cases k with
  | none => exact ⟨rfl, rfl, rfl⟩
  | some s => cases hs : s.isEmpty <;> simp [setKeywords, hs]

/-- A falsy question argument leaves the question unchanged. -/
lemma setQuestion_falsy {q : Option Str} (h : q = none ∨ q = some [])
    (e : FaqEntry) : setQuestion q e = e := by
  rcases h with h | h <;> subst h <;> rfl

/-- A truthy question argument overwrites the question. -/
lemma setQuestion_truthy {s : Str} (h : s ≠ []) (e : FaqEntry) :
    (setQuestion (some s) e).question = s := by
  have hs : s.isEmpty = false := by
    cases s with
    | nil => exact absurd rfl h
    | cons c cs => rfl
  simp [setQuestion, hs]

/-- A falsy answer argument leaves the answer unchanged. -/
lemma setAnswer_falsy {a : Option Str} (h : a = none ∨ a = some [])
    (e : FaqEntry) : setAnswer a e = e := by
  rcases h with h | h <;> subst h <;> rfl

/-- A truthy answer argument overwrites the answer. -/
lemma setAnswer_truthy {s : Str} (h : s ≠ []) (e : FaqEntry) :
    (setAnswer (some s) e).answer = s := by
  have hs : s.isEmpty = false := by
    cases s with
    | nil => exact absurd rfl h
    | cons c cs => rfl
  simp [setAnswer, hs]

/-- A falsy keywords argument leaves the keywords unchanged. -/
lemma setKeywords_falsy {k : Option (List Str)} (h : k = none ∨ k = some [])
    (e : FaqEntry) : setKeywords k e = e := by
  rcases h with h | h <;> subst h <;> rfl

/-- A truthy keywords argument overwrites the keywords. -/
lemma setKeywords_truthy {ks : List Str} (h : ks ≠ []) (e : FaqEntry) :
    (setKeywords (some ks) e).keywords = ks := by
  have hs : ks.isEmpty = false := by
    cases ks with
    | nil => exact absurd rfl h
    | cons c cs => rfl
  simp [setKeywords, hs]

/-- Rewriting the first entry with a given id in a decomposed list. -/
lemma updateFirstById_append (l1 : List FaqEntry) (e : FaqEntry)
    (l2 : List FaqEntry) (i : ℕ) (f : FaqEntry → FaqEntry)
    (hfirst : ∀ x ∈ l1, x.id ≠ i) (hid : e.id = i) :
    updateFirstById (l1 ++ e :: l2) i f = l1 ++ f e :: l2 := by
  induction l1 with
  | nil => simp [updateFirstById, hid]
  | cons y ys ih =>
      rw [List.cons_append, updateFirstById,
        if_neg (hfirst y (List.mem_cons_self y ys)), List.cons_append,
        ih (fun x hx => hfirst x (List.mem_cons_of_mem y hx))]

/-- C10: for an existing id, `update_faq` reports success, rewrites exactly
the first entry carrying the id, never changes the id, and changes each
field exactly when the corresponding argument is truthy (supplied and
non-empty); `None`, an empty string, or an empty keyword list leaves the
field unchanged. -/
theorem updateFaq_truthy (m : EnhancedFAQManager) (faqId : ℕ)
    (q a : Option Str) (k : Option (List Str))
    (l1 : List FaqEntry) (e : FaqEntry) (l2 : List FaqEntry)
    (hdata : m.faqData = l1 ++ e :: l2) (hid : e.id = faqId)
    (hfirst : ∀ x ∈ l1, x.id ≠ faqId) :
    (updateFaq m faqId q a k).1 = true ∧
    (updateFaq m faqId q a k).2.faqData = l1 ++ applyUpdate q a k e :: l2 ∧
    (applyUpdate q a k e).id = e.id ∧
    ((q = none ∨ q = some []) → (applyUpdate q a k e).question = e.question) ∧
    (∀ s, q = some s → s ≠ [] → (applyUpdate q a k e).question = s) ∧
    ((a = none ∨ a = some []) → (applyUpdate q a k e).answer = e.answer) ∧
    (∀ s, a = some s → s ≠ [] → (applyUpdate q a k e).answer = s) ∧
    ((k = none ∨ k = some []) → (applyUpdate q a k e).keywords = e.keywords) ∧
    (∀ ks, k = some ks → ks ≠ [] → (applyUpdate q a k e).keywords = ks) := by
  have hfound : getFaqById m.faqData faqId = some e := by
    rw [hdata]
    refine find?_first _ l1 e l2 (fun x hx => ?_) (by simp [hid])
    simpa using hfirst x hx
  have h1 : (updateFaq m faqId q a k).1 = true := by
    simp only [updateFaq, hfound]
  have h2 : (updateFaq m faqId q a k).2.faqData =
      l1 ++ applyUpdate q a k e :: l2 := by
    simp only [updateFaq, hfound]
    rw [hdata, updateFirstById_append l1 e l2 faqId _ hfirst hid]
  refine ⟨h1, h2, ?_, ?_, ?_, ?_, ?_, ?_, ?_⟩
  · rw [applyUpdate, (setKeywords_fields _ _).1, (setAnswer_fields _ _).1,
      (setQuestion_fields _ _).1]
  · intro hq
    rw [applyUpdate, (setKeywords_fields _ _).2.1, (setAnswer_fields _ _).2.1,
      setQuestion_falsy hq]
  · intro s hs hne
    subst hs
    rw [applyUpdate, (setKeywords_fields _ _).2.1, (setAnswer_fields _ _).2.1,
      setQuestion_truthy hne]
  · intro ha
    rw [applyUpdate, (setKeywords_fields _ _).2.2, setAnswer_falsy ha,
      (setQuestion_fields _ _).2.1]
  · intro s hs hne
    subst hs
    rw [applyUpdate, (setKeywords_fields _ _).2.2, setAnswer_truthy hne]
  · intro hk
    rw [applyUpdate, setKeywords_falsy hk, (setAnswer_fields _ _).2.2,
      (setQuestion_fields _ _).2.2]
  · intro ks hk hne
    subst hk
    rw [applyUpdate, setKeywords_truthy hne]

/-- C10 witness: updating entry 1 with a truthy question, no answer, and an
empty keyword list changes only the question. -/
theorem updateFaq_truthy_witness :
    (updateFaq mgrAB 1 (some (str ("nq"))) none (some [])).2.faqData =
      [] ++ applyUpdate (some (str ("nq"))) none (some []) entAlpha :: [entBeta] :=
  (updateFaq_truthy mgrAB 1 (some (str ("nq"))) none (some []) [] entAlpha
    [entBeta] rfl rfl (fun x hx => absurd hx (List.not_mem_nil x))).2.1

/-! ### C4 -/

/-- The keyword-vs-word matching predicate named by the specification: the
two strings are equal, one contains the other, one starts the other, or
their pairwise similarity exceeds 0.8 (in source order). -/
def kwMatchP (ratioFn : Str → Str → ℚ) (kl w : Str) : Prop :=
  kl = w ∨ kl <:+: w ∨ w <:+: kl ∨ w <+: kl ∨ kl <+: w ∨ (8 : ℚ)/10 < ratioFn kl w

instance (ratioFn : Str → Str → ℚ) (kl w : Str) :
    Decidable (kwMatchP ratioFn kl w) := by
  unfold kwMatchP; infer_instance

/-- The boolean disjunction in the code decides the matching predicate. -/
lemma kwMatchB_iff (ratioFn : Str → Str → ℚ) (kl w : Str) :
    kwMatchB ratioFn kl w = true ↔ kwMatchP ratioFn kl w := by
  simp [kwMatchB, kwMatchP, or_assoc]

/-- C4: `keyword_score` equals the fraction of the entry's keywords (first
lowercased) that match at least one query word under the five-condition
predicate, and equals 0 when either list is empty. -/
theorem keywordSimilarity_fraction (ratioFn : Str → Str → ℚ)
    (queryWords keywords : List Str) :
    (keywords = [] ∨ queryWords = [] →
      calculateKeywordSimilarity ratioFn queryWords keywords = 0) ∧
    (keywords ≠ [] → queryWords ≠ [] →
      calculateKeywordSimilarity ratioFn queryWords keywords =
        ((keywords.countP (fun kw =>
            decide (∃ w ∈ queryWords, kwMatchP ratioFn (lower kw) w)) : ℕ) : ℚ) /
          (keywords.length : ℚ)) := by
  constructor
  · intro h
    rcases h with h | h <;> simp [calculateKeywordSimilarity, h]
  · intro hk hq
    have hks : keywords.isEmpty = false := by
      cases keywords with
      | nil => exact absurd rfl hk
      | cons c cs => rfl
    have hqs : queryWords.isEmpty = false := by
      cases queryWords with
      | nil => exact absurd rfl hq
      | cons c cs => rfl
    have hlen : 0 < keywords.length := by
      cases keywords with
      | nil => exact absurd rfl hk
      | cons c cs => simp
    have hcount : (fun kw => queryWords.any fun w => kwMatchB ratioFn (lower kw) w) =
        (fun kw => decide (∃ w ∈ queryWords, kwMatchP ratioFn (lower kw) w)) := by
      funext kw
      rw [Bool.eq_iff_iff]
      simp [List.any_eq_true, kwMatchB_iff]
    simp only [calculateKeywordSimilarity, hks, hqs, Bool.or_self,
      Bool.false_eq_true, if_false, hlen, if_pos, hcount]

/-- C4 witness: the fraction formula evaluated on a one-keyword list that
matches the single query word exactly. -/
theorem keywordSimilarity_fraction_witness :
    calculateKeywordSimilarity ratioZero [str ("hello")] [str ("hello")] =
      (([str ("hello")].countP (fun kw =>
          decide (∃ w ∈ [str ("hello")], kwMatchP ratioZero (lower kw) w)) : ℕ) : ℚ) /
        (([str ("hello")] : List Str).length : ℚ) :=
  (keywordSimilarity_fraction ratioZero [str ("hello")] [str ("hello")]).2
    (by decide) (by decide)

/-! ### C3 -/

/-- Characterization of the `_find_by_similarity` fold from any accumulator:
either nothing is accepted (the accumulator passes through and every scanned
entry scores at most the incoming score or at most 0.3), or the result is
the first entry of the scanned list attaining the maximal score, that score
exceeding both 0.3 and the incoming score. -/
lemma simFold_spec (ratioFn : Str → Str → ℚ) (q : Str) (qws : List Str) :
    ∀ (rest : List FaqEntry) (b : Option FaqEntry) (s : ℚ),
      (rest.foldl (simStep ratioFn q qws) (b, s) = (b, s) ∧
        ∀ x ∈ rest, totalScore ratioFn q qws x ≤ s ∨
          totalScore ratioFn q qws x ≤ 3/10) ∨
      (∃ e l1 l2,
        (rest.foldl (simStep ratioFn q qws) (b, s)).1 = some e ∧
        (rest.foldl (simStep ratioFn q qws) (b, s)).2 = totalScore ratioFn q qws e ∧
        3/10 < totalScore ratioFn q qws e ∧ s < totalScore ratioFn q qws e ∧
        rest = l1 ++ e :: l2 ∧
        (∀ x ∈ l1, totalScore ratioFn q qws x < totalScore ratioFn q qws e) ∧
        (∀ x ∈ l2, totalScore ratioFn q qws x ≤ totalScore ratioFn q qws e)) := by
  intro rest
  induction rest with
  | nil =>
      intro b s
      left
      exact ⟨rfl, by simp⟩
  | cons x xs ih =>
      intro b s
      rw [List.foldl_cons]
      have hstep : simStep ratioFn q qws (b, s) x =
          if s < totalScore ratioFn q qws x ∧ 3/10 < totalScore ratioFn q qws x
          then (some x, totalScore ratioFn q qws x) else (b, s) := rfl
      by_cases hx : s < totalScore ratioFn q qws x ∧ 3/10 < totalScore ratioFn q qws x
      · rw [hstep, if_pos hx]
        rcases ih (some x) (totalScore ratioFn q qws x) with ⟨hr, hall⟩ |
          ⟨e, l1, l2, h1, h2, h3, h4, h5, h6, h7⟩
        · right
          refine ⟨x, [], xs, ?_, ?_, hx.2, hx.1, rfl, ?_, ?_⟩
          · rw [hr]
          · rw [hr]
          · intro y hy
            exact absurd hy (List.not_mem_nil y)
          · intro y hy
            rcases hall y hy with h | h
            · exact h
            · exact le_trans h (le_of_lt hx.2)
        · right
          refine ⟨e, x :: l1, l2, h1, h2, h3, lt_trans hx.1 h4, by simp [h5], ?_, h7⟩
          intro y hy
          rcases List.mem_cons.1 hy with rfl | hy
          · exact h4
          · exact h6 y hy
      · rw [hstep, if_neg hx]
        have hxle : totalScore ratioFn q qws x ≤ s ∨
            totalScore ratioFn q qws x ≤ 3/10 := by
          rcases not_and_or.1 hx with h | h
          · exact Or.inl (le_of_not_lt h)
          · exact Or.inr (le_of_not_lt h)
        rcases ih b s with ⟨hr, hall⟩ | ⟨e, l1, l2, h1, h2, h3, h4, h5, h6, h7⟩
        · left
          refine ⟨hr, ?_⟩
          intro y hy
          rcases List.mem_cons.1 hy with rfl | hy
          · exact hxle
          · exact hall y hy
        · right
          refine ⟨e, x :: l1, l2, h1, h2, h3, h4, by simp [h5], ?_, h7⟩
          intro y hy
          rcases List.mem_cons.1 hy with rfl | hy
          · rcases hxle with h | h
            · exact lt_of_le_of_lt h h4
            · exact lt_of_le_of_lt h h3
          · exact h6 y hy

/-- C3: the Tier-3 combined score is `0.6 * question_score + 0.4 *
keyword_score`; `_find_by_similarity` accepts the maximal such score over
all entries exactly when it strictly exceeds 0.3, ties going to the entry
encountered first in store order, and returns `none` when no entry exceeds
the threshold. -/
theorem findBySimilarity_spec (ratioFn : Str → Str → ℚ)
    (entries : List FaqEntry) (q : Str) (qws : List Str) :
    (∀ e : FaqEntry, totalScore ratioFn q qws e =
        ratioFn q (lower e.question) * (6/10) +
          calculateKeywordSimilarity ratioFn qws e.keywords * (4/10)) ∧
    (∀ e, findBySimilarity ratioFn entries q qws = some e →
        3/10 < totalScore ratioFn q qws e ∧
        (∀ x ∈ entries, totalScore ratioFn q qws x ≤ totalScore ratioFn q qws e) ∧
        ∃ l1 l2, entries = l1 ++ e :: l2 ∧
          ∀ x ∈ l1, totalScore ratioFn q qws x < totalScore ratioFn q qws e) ∧
    (findBySimilarity ratioFn entries q qws = none →
        ∀ x ∈ entries, totalScore ratioFn q qws x ≤ 3/10) := by
  refine ⟨fun e => rfl, ?_, ?_⟩
  · intro e he
    unfold findBySimilarity at he
    rcases simFold_spec ratioFn q qws entries none 0 with ⟨hr, hall⟩ |
      ⟨e', l1, l2, h1, h2, h3, h4, h5, h6, h7⟩
    · rw [hr] at he
      exact Option.noConfusion he
    · have he' : e' = e := by
        rw [h1] at he
        exact Option.some.inj he
      subst he'
      refine ⟨h3, ?_, l1, l2, h5, h6⟩
      intro x hx
      rw [h5] at hx
      rcases List.mem_append.1 hx with hx | hx
      · exact le_of_lt (h6 x hx)
      · rcases List.mem_cons.1 hx with rfl | hx
        · exact le_refl _
        · exact h7 x hx
  · intro he x hx
    unfold findBySimilarity at he
    rcases simFold_spec ratioFn q qws entries none 0 with ⟨hr, hall⟩ |
      ⟨e', l1, l2, h1, h2, h3, h4, h5, h6, h7⟩
    · rcases hall x hx with h | h
      · exact le_trans h (by norm_num)
      · exact h
    · rw [h1] at he
      exact Option.noConfusion he

/-- C3 witness: the specification applied to a concrete store where the
single entry's keyword matches the query word, scoring 0.4 > 0.3. -/
theorem findBySimilarity_spec_witness :
    3/10 < totalScore ratioZero (str ("zzz")) [str ("hello")] entHello := by
  have hlow : lower (str ("hello")) = str ("hello") := by decide
  have hkw : kwMatchB ratioZero (lower (str ("hello"))) (str ("hello")) = true := by
    rw [hlow]; decide
  have hcalc : calculateKeywordSimilarity ratioZero [str ("hello")] [str ("hello")] = 1 := by
    rw [calculateKeywordSimilarity]
    norm_num [List.countP_cons, List.countP_nil, hkw]
  have hts : totalScore ratioZero (str ("zzz")) [str ("hello")] entHello = 2/5 := by
    rw [totalScore]
    show (0:ℚ) * (6/10) +
      calculateKeywordSimilarity ratioZero [str ("hello")] entHello.keywords * (4/10) = 2/5
    rw [show entHello.keywords = [str ("hello")] from rfl, hcalc]
    norm_num
  have hsim : findBySimilarity ratioZero [entHello] (str ("zzz"))
      [str ("hello")] = some entHello := by
    rw [findBySimilarity, List.foldl_cons, List.foldl_nil, simStep]
    rw [hts]
    norm_num
  exact (((findBySimilarity_spec ratioZero [entHello] (str ("zzz"))
    [str ("hello")]).2.1) entHello hsim).1

/-! ### C1 -/

/-- The fold implementing Python `max(..., key=...)` returns an element of
the scanned list that strictly exceeds everything before it (first maximum
wins) and weakly dominates everything. -/
lemma maxFrom_spec (l : List (ℕ × ℕ)) :
    ∀ p : ℕ × ℕ,
      (∀ x ∈ p :: l, x.2 ≤ (maxFrom p l).2) ∧
      ∃ l1 l2, p :: l = l1 ++ maxFrom p l :: l2 ∧
        ∀ x ∈ l1, x.2 < (maxFrom p l).2 := by
  induction l with
  | nil =>
      intro p
      constructor
      · intro x hx
        rcases List.mem_cons.1 hx with rfl | hx
        · exact le_refl _
        · exact absurd hx (List.not_mem_nil x)
      · exact ⟨[], [], rfl, fun x hx => absurd hx (List.not_mem_nil x)⟩
  | cons q l ih =>
      intro p
      have hunf : maxFrom p (q :: l) = maxFrom (if p.2 < q.2 then q else p) l := rfl
      by_cases h : p.2 < q.2
      · rw [hunf, if_pos h]
        obtain ⟨hle, l1, l2, hdec, hlt⟩ := ih q
        have hq2 : q.2 ≤ (maxFrom q l).2 := hle q (List.mem_cons_self q l)
        constructor
        · intro x hx
          rcases List.mem_cons.1 hx with rfl | hx
          · exact le_trans (le_of_lt h) hq2
          · exact hle x hx
        · refine ⟨p :: l1, l2, ?_, ?_⟩
          · rw [List.cons_append, ← hdec]
          · intro x hx
            rcases List.mem_cons.1 hx with rfl | hx
            · exact lt_of_lt_of_le h hq2
            · exact hlt x hx
      · rw [hunf, if_neg h]
        obtain ⟨hle, l1, l2, hdec, hlt⟩ := ih p
        have hp2 : p.2 ≤ (maxFrom p l).2 := hle p (List.mem_cons_self p l)
        have hqp : q.2 ≤ p.2 := le_of_not_lt h
        constructor
        · intro x hx
          rcases List.mem_cons.1 hx with rfl | hx
          · exact hp2
          · rcases List.mem_cons.1 hx with rfl | hx
            · exact le_trans hqp hp2
            · exact hle x (List.mem_cons_of_mem p hx)
        · cases l1 with
          | nil =>
              have hpm : p = maxFrom p l := by
                have := hdec
                rw [List.nil_append] at this
                exact (List.cons.injEq _ _ _ _ ▸ this).1
              have hl2 : l = l2 := by
                have := hdec
                rw [List.nil_append] at this
                exact (List.cons.injEq _ _ _ _ ▸ this).2
              refine ⟨[], q :: l2, ?_, fun x hx => absurd hx (List.not_mem_nil x)⟩
              rw [List.nil_append, ← hpm, hl2]
          | cons y ys =>
              have hy : p = y ∧ l = ys ++ maxFrom p l :: l2 := by
                have h2 := hdec
                rw [List.cons_append] at h2
                exact ⟨(List.cons.injEq _ _ _ _ ▸ h2).1,
                  (List.cons.injEq _ _ _ _ ▸ h2).2⟩
              obtain ⟨hpy, hl⟩ := hy
              subst hpy
              have hplt : p.2 < (maxFrom p l).2 := hlt p (List.mem_cons_self p ys)
              refine ⟨p :: q :: ys, l2, ?_, ?_⟩
              · rw [List.cons_append, List.cons_append, ← hl]
              · intro x hx
                rcases List.mem_cons.1 hx with rfl | hx
                · exact hplt
                · rcases List.mem_cons.1 hx with rfl | hx
                  · exact lt_of_le_of_lt hqp hplt
                  · exact hlt x (List.mem_cons_of_mem p hx)

/-- Fold preservation of an invariant. -/
lemma foldl_preserve {α β : Type _} (P : β → Prop) (f : β → α → β)
    (hstep : ∀ b a, P b → P (f b a)) :
    ∀ (l : List α) (b : β), P b → P (l.foldl f b) := by
  intro l
  induction l with
  | nil => intro b hb; exact hb
  | cons x xs ih => intro b hb; exact ih _ (hstep b x hb)

/-- Every count stays at least 1 across one posting hit. -/
lemma updateScores_pos (sc : List (ℕ × ℕ)) (i : ℕ)
    (h : ∀ x ∈ sc, 1 ≤ x.2) : ∀ x ∈ updateScores sc i, 1 ≤ x.2 := by
  intro x hx
  unfold updateScores at hx
  by_cases hc : sc.any (fun p => p.1 == i) = true
  · rw [if_pos hc] at hx
    rcases List.mem_map.1 hx with ⟨y, hy, rfl⟩
    by_cases hyi : y.1 = i
    · rw [if_pos hyi]
      exact Nat.succ_le_succ (Nat.zero_le _)
    · rw [if_neg hyi]
      exact h y hy
  · rw [if_neg hc] at hx
    rcases List.mem_append.1 hx with hx | hx
    · exact h x hx
    · rw [List.mem_singleton.1 hx]
/-- Every accumulated count is at least 1. -/
lemma accumulateScores_pos (idx : Str → List ℕ) (qws : List Str) :
    ∀ x ∈ accumulateScores idx qws, 1 ≤ x.2 := by
  unfold accumulateScores
  refine foldl_preserve (fun sc : List (ℕ × ℕ) => ∀ x ∈ sc, 1 ≤ x.2) _ ?_ qws []
    (fun x hx => absurd hx (List.not_mem_nil x))
  intro sc w hsc
  exact foldl_preserve (fun sc2 : List (ℕ × ℕ) => ∀ x ∈ sc2, 1 ≤ x.2) updateScores
    (fun b a hb => updateScores_pos b a hb) (idx w) sc hsc

/-- C1 (amended): whenever Tier 2 returns an entry, that entry's id carries
the maximal accumulated hit count, every accumulated count is at least 1 (so
the acceptance threshold never rejects a nonempty accumulation), and ties
are broken by the first key inserted into the accumulation dict — the order
of query words and posting lists — not by the lowest id. -/
theorem findByKeywords_max (entries : List FaqEntry) (idx : Str → List ℕ)
    (qws : List Str) (e : FaqEntry)
    (h : findByKeywords entries idx qws = some e) :
    (∀ x ∈ accumulateScores idx qws, 1 ≤ x.2) ∧
    ∃ c, (e.id, c) ∈ accumulateScores idx qws ∧ 1 ≤ c ∧
      (∀ x ∈ accumulateScores idx qws, x.2 ≤ c) ∧
      ∃ l1 l2, accumulateScores idx qws = l1 ++ (e.id, c) :: l2 ∧
        ∀ x ∈ l1, x.2 < c := by
  refine ⟨accumulateScores_pos idx qws, ?_⟩
  unfold findByKeywords at h
  by_cases hq : qws.isEmpty = true
  · rw [if_pos hq] at h
    exact Option.noConfusion h
  · rw [if_neg hq] at h
    cases hsc : accumulateScores idx qws with
    | nil =>
        rw [hsc] at h
        exact Option.noConfusion h
    | cons p ps =>
        rw [hsc] at h
        have h' : (if 1 ≤ (maxFrom p ps).2 then
            getFaqById entries (maxFrom p ps).1 else none) = some e := h
        by_cases h1 : 1 ≤ (maxFrom p ps).2
        · rw [if_pos h1] at h'
          unfold getFaqById at h'
          have heid : e.id = (maxFrom p ps).1 := by
            have hp := List.find?_some h'
            simpa using hp
          obtain ⟨hle, l1, l2, hdec, hlt⟩ := maxFrom_spec ps p
          refine ⟨(maxFrom p ps).2, ?_, h1, ?_, l1, l2, ?_, hlt⟩
          · rw [heid]
            have hmm : maxFrom p ps ∈ p :: ps := by
              rw [hdec]
              exact List.mem_append_right _ (List.mem_cons_self _ _)
            simpa using hmm
          · intro x hx
            exact hle x hx
          · rw [heid, Prod.mk.eta]
            exact hdec
        · rw [if_neg h1] at h'
          exact Option.noConfusion h'

/-- C1 (counterexample): querying `"beta alpha"` on the two-entry store
accumulates the tied counts [(2,1),(1,1)]; the winner is the first-inserted
id 2, not the lowest id 1. -/
theorem findByKeywords_tie_counterexample :
    words (strip (lower (str ("beta alpha")))) = [str ("beta"), str ("alpha")] ∧
    accumulateScores mgrAB.searchIndex [str ("beta"), str ("alpha")] =
      [(2, 1), (1, 1)] ∧
    findByKeywords mgrAB.faqData mgrAB.searchIndex
      [str ("beta"), str ("alpha")] = some entBeta ∧
    searchFaq ratioZero mgrAB (str ("beta alpha")) = some entBeta ∧
    entBeta.id = 2 ∧ entAlpha.id = 1 := by decide

/-- C1 witness: the amended theorem applied to a single-word query hitting
entry 2. -/
theorem findByKeywords_max_witness :
    (∀ x ∈ accumulateScores mgrAB.searchIndex [str ("beta")], 1 ≤ x.2) ∧
    ∃ c, (entBeta.id, c) ∈ accumulateScores mgrAB.searchIndex [str ("beta")] ∧
      1 ≤ c ∧
      (∀ x ∈ accumulateScores mgrAB.searchIndex [str ("beta")], x.2 ≤ c) ∧
      ∃ l1 l2, accumulateScores mgrAB.searchIndex [str ("beta")] =
          l1 ++ (entBeta.id, c) :: l2 ∧
        ∀ x ∈ l1, x.2 < c :=
  findByKeywords_max mgrAB.faqData mgrAB.searchIndex [str ("beta")] entBeta
    (by decide)

/-! ### Token Index lemmas (shared by C7 and C9) -/

/-- Membership is preserved by one keyword-token insertion. -/
lemma addToken_mono {idx : Str → List ℕ} {t : Str} {i : ℕ} (tok : Str) (j : ℕ)
    (h : i ∈ idx t) : i ∈ addToken idx tok j t := by
  unfold addToken
  by_cases ht : t = tok
  · rw [if_pos ht]
    exact List.mem_append_left _ h
  · rw [if_neg ht]
    exact h

/-- Membership is preserved by one question-word insertion. -/
lemma addTokenNoDup_mono {idx : Str → List ℕ} {t : Str} {i : ℕ} (tok : Str)
    (j : ℕ) (h : i ∈ idx t) : i ∈ addTokenNoDup idx tok j t := by
  unfold addTokenNoDup
  by_cases ht : t = tok
  · rw [if_pos ht]
    rw [ht] at h
    by_cases hj : j ∈ idx tok
    · rw [if_pos hj]
      exact h
    · rw [if_neg hj]
      exact List.mem_append_left _ h
  · rw [if_neg ht]
    exact h

/-- Membership is preserved by the keyword fold of one entry. -/
lemma kwFold_mono (j : ℕ) (kws : List Str) :
    ∀ (idx : Str → List ℕ) (t : Str) (i : ℕ), i ∈ idx t →
      i ∈ (kws.foldl (fun a kw => addToken a (lower kw) j) idx) t := by
  induction kws with
  | nil => intro idx t i h; exact h
  | cons k ks ih =>
      intro idx t i h
      simp only [List.foldl_cons]
      exact ih _ t i (addToken_mono (lower k) j h)

/-- Membership is preserved by the question-word fold of one entry. -/
lemma qwFold_mono (j : ℕ) (ws : List Str) :
    ∀ (idx : Str → List ℕ) (t : Str) (i : ℕ), i ∈ idx t →
      i ∈ (ws.foldl (fun a w => if 2 < w.length then addTokenNoDup a w j else a) idx) t := by
  induction ws with
  | nil => intro idx t i h; exact h
  | cons w ws ih =>
      intro idx t i h
      simp only [List.foldl_cons]
      by_cases hw : 2 < w.length
      · rw [if_pos hw]
        exact ih _ t i (addTokenNoDup_mono w j h)
      · rw [if_neg hw]
        exact ih _ t i h

/-- Membership is preserved by indexing one entry. -/
lemma indexEntry_mono (e : FaqEntry) (idx : Str → List ℕ) (t : Str) (i : ℕ)
    (h : i ∈ idx t) : i ∈ indexEntry idx e t := by
  unfold indexEntry
  exact qwFold_mono e.id _ _ t i (kwFold_mono e.id e.keywords idx t i h)

/-- Membership is preserved by the whole entry fold. -/
lemma entriesFold_mono (es : List FaqEntry) :
    ∀ (idx : Str → List ℕ) (t : Str) (i : ℕ), i ∈ idx t →
      i ∈ (es.foldl indexEntry idx) t := by
  induction es with
  | nil => intro idx t i h; exact h
  | cons e es ih =>
      intro idx t i h
      simp only [List.foldl_cons]
      exact ih _ t i (indexEntry_mono e idx t i h)

/-- The keyword fold indexes every keyword of the entry. -/
lemma kwFold_adds (j : ℕ) (kws : List Str) :
    ∀ (idx : Str → List ℕ) (kw : Str), kw ∈ kws →
      j ∈ (kws.foldl (fun a k2 => addToken a (lower k2) j) idx) (lower kw) := by
  induction kws with
  | nil => intro idx kw h; exact absurd h (List.not_mem_nil kw)
  | cons k ks ih =>
      intro idx kw h
      simp only [List.foldl_cons]
      rcases List.mem_cons.1 h with rfl | h
      · refine kwFold_mono j ks _ (lower kw) j ?_
        unfold addToken
        rw [if_pos rfl]
        exact List.mem_append_right _ (List.mem_singleton.2 rfl)
      · exact ih _ kw h

/-- The question-word fold indexes every word longer than 2. -/
lemma qwFold_adds (j : ℕ) (ws : List Str) :
    ∀ (idx : Str → List ℕ) (w : Str), w ∈ ws → 2 < w.length →
      j ∈ (ws.foldl (fun a w2 => if 2 < w2.length then addTokenNoDup a w2 j else a) idx) w := by
  induction ws with
  | nil => intro idx w h _; exact absurd h (List.not_mem_nil w)
  | cons v vs ih =>
      intro idx w h hlen
      simp only [List.foldl_cons]
      rcases List.mem_cons.1 h with rfl | h
      · rw [if_pos hlen]
        refine qwFold_mono j vs _ w j ?_
        unfold addTokenNoDup
        rw [if_pos rfl]
        by_cases hj : j ∈ idx w
        · rw [if_pos hj]
          exact hj
        · rw [if_neg hj]
          exact List.mem_append_right _ (List.mem_singleton.2 rfl)
      · by_cases hv : 2 < v.length
        · rw [if_pos hv]
          exact ih _ w h hlen
        · rw [if_neg hv]
          exact ih _ w h hlen

/-- Indexing one entry maps each lowercased keyword to the entry id. -/
lemma indexEntry_adds_kw (e : FaqEntry) (idx : Str → List ℕ) (kw : Str)
    (h : kw ∈ e.keywords) : e.id ∈ indexEntry idx e (lower kw) := by
  unfold indexEntry
  exact qwFold_mono e.id _ _ (lower kw) e.id (kwFold_adds e.id e.keywords idx kw h)

/-- Indexing one entry maps each long lowercased-question word to the id. -/
lemma indexEntry_adds_qw (e : FaqEntry) (idx : Str → List ℕ) (w : Str)
    (h : w ∈ words (lower e.question)) (hlen : 2 < w.length) :
    e.id ∈ indexEntry idx e w := by
  unfold indexEntry
  exact qwFold_adds e.id _ _ w h hlen

/-- The entry fold indexes the keywords of every member entry. -/
lemma entriesFold_adds_kw (es : List FaqEntry) :
    ∀ (idx : Str → List ℕ) (e : FaqEntry) (kw : Str), e ∈ es → kw ∈ e.keywords →
      e.id ∈ (es.foldl indexEntry idx) (lower kw) := by
  induction es with
  | nil => intro idx e kw h _; exact absurd h (List.not_mem_nil e)
  | cons f fs ih =>
      intro idx e kw h hkw
      simp only [List.foldl_cons]
      rcases List.mem_cons.1 h with rfl | h
      · exact entriesFold_mono fs _ (lower kw) e.id (indexEntry_adds_kw e idx kw hkw)
      · exact ih _ e kw h hkw

/-- The entry fold indexes the long question words of every member entry. -/
lemma entriesFold_adds_qw (es : List FaqEntry) :
    ∀ (idx : Str → List ℕ) (e : FaqEntry) (w : Str), e ∈ es →
      w ∈ words (lower e.question) → 2 < w.length →
      e.id ∈ (es.foldl indexEntry idx) w := by
  induction es with
  | nil => intro idx e w h _ _; exact absurd h (List.not_mem_nil e)
  | cons f fs ih =>
      intro idx e w h hw hlen
      simp only [List.foldl_cons]
      rcases List.mem_cons.1 h with rfl | h
      · exact entriesFold_mono fs _ w e.id (indexEntry_adds_qw e idx w hw hlen)
      · exact ih _ e w h hw hlen

/-- Provenance across one keyword-token insertion. -/
lemma addToken_sound {idx : Str → List ℕ} {tok : Str} {j : ℕ} {t : Str} {i : ℕ}
    (h : i ∈ addToken idx tok j t) : i ∈ idx t ∨ (i = j ∧ t = tok) := by
  unfold addToken at h
  by_cases ht : t = tok
  · rw [if_pos ht] at h
    rcases List.mem_append.1 h with h | h
    · exact Or.inl h
    · exact Or.inr ⟨List.mem_singleton.1 h, ht⟩
  · rw [if_neg ht] at h
    exact Or.inl h

/-- Provenance across one question-word insertion. -/
lemma addTokenNoDup_sound {idx : Str → List ℕ} {tok : Str} {j : ℕ} {t : Str}
    {i : ℕ} (h : i ∈ addTokenNoDup idx tok j t) :
    i ∈ idx t ∨ (i = j ∧ t = tok) := by
  unfold addTokenNoDup at h
  by_cases ht : t = tok
  · rw [if_pos ht] at h
    by_cases hj : j ∈ idx tok
    · rw [if_pos hj] at h
      refine Or.inl ?_
      rw [ht]
      exact h
    · rw [if_neg hj] at h
      rcases List.mem_append.1 h with h | h
      · refine Or.inl ?_
        rw [ht]
        exact h
      · exact Or.inr ⟨List.mem_singleton.1 h, ht⟩
  · rw [if_neg ht] at h
    exact Or.inl h

/-- Provenance across the keyword fold. -/
lemma kwFold_sound (j : ℕ) (kws : List Str) :
    ∀ (idx : Str → List ℕ) (t : Str) (i : ℕ),
      i ∈ (kws.foldl (fun a k2 => addToken a (lower k2) j) idx) t →
      i ∈ idx t ∨ (i = j ∧ ∃ kw ∈ kws, t = lower kw) := by
  induction kws with
  | nil => intro idx t i h; exact Or.inl h
  | cons k ks ih =>
      intro idx t i h
      simp only [List.foldl_cons] at h
      rcases ih _ t i h with h | ⟨rfl, kw, hkw, rfl⟩
      · rcases addToken_sound h with h | ⟨rfl, rfl⟩
        · exact Or.inl h
        · exact Or.inr ⟨rfl, k, List.mem_cons_self k ks, rfl⟩
      · exact Or.inr ⟨rfl, kw, List.mem_cons_of_mem k hkw, rfl⟩

/-- Provenance across the question-word fold. -/
lemma qwFold_sound (j : ℕ) (ws : List Str) :
    ∀ (idx : Str → List ℕ) (t : Str) (i : ℕ),
      i ∈ (ws.foldl (fun a w2 => if 2 < w2.length then addTokenNoDup a w2 j else a) idx) t →
      i ∈ idx t ∨ (i = j ∧ t ∈ ws ∧ 2 < t.length) := by
  induction ws with
  | nil => intro idx t i h; exact Or.inl h
  | cons v vs ih =>
      intro idx t i h
      simp only [List.foldl_cons] at h
      by_cases hv : 2 < v.length
      · rw [if_pos hv] at h
        rcases ih _ t i h with h | ⟨rfl, hmem, hlen⟩
        · rcases addTokenNoDup_sound h with h | ⟨rfl, ht⟩
          · exact Or.inl h
          · subst ht
            exact Or.inr ⟨rfl, List.mem_cons_self _ _, hv⟩
        · exact Or.inr ⟨rfl, List.mem_cons_of_mem v hmem, hlen⟩
      · rw [if_neg hv] at h
        rcases ih _ t i h with h | ⟨rfl, hmem, hlen⟩
        · exact Or.inl h
        · exact Or.inr ⟨rfl, List.mem_cons_of_mem v hmem, hlen⟩

/-- Provenance across the indexing of one entry. -/
lemma indexEntry_sound (e : FaqEntry) (idx : Str → List ℕ) (t : Str) (i : ℕ)
    (h : i ∈ indexEntry idx e t) :
    i ∈ idx t ∨ (i = e.id ∧
      ((∃ kw ∈ e.keywords, t = lower kw) ∨
        (t ∈ words (lower e.question) ∧ 2 < t.length))) := by
  unfold indexEntry at h
  rcases qwFold_sound e.id _ _ t i h with h | ⟨rfl, hmem, hlen⟩
  · rcases kwFold_sound e.id _ _ t i h with h | ⟨rfl, hkw⟩
    · exact Or.inl h
    · exact Or.inr ⟨rfl, Or.inl hkw⟩
  · exact Or.inr ⟨rfl, Or.inr ⟨hmem, hlen⟩⟩

/-- Provenance across the whole entry fold. -/
lemma entriesFold_sound (es : List FaqEntry) :
    ∀ (idx : Str → List ℕ) (t : Str) (i : ℕ),
      i ∈ (es.foldl indexEntry idx) t →
      i ∈ idx t ∨ ∃ e ∈ es, i = e.id ∧
        ((∃ kw ∈ e.keywords, t = lower kw) ∨
          (t ∈ words (lower e.question) ∧ 2 < t.length)) := by
  induction es with
  | nil => intro idx t i h; exact Or.inl h
  | cons f fs ih =>
      intro idx t i h
      simp only [List.foldl_cons] at h
      rcases ih _ t i h with h | ⟨e, he, hrest⟩
      · rcases indexEntry_sound f idx t i h with h | ⟨hi, hrest⟩
        · exact Or.inl h
        · exact Or.inr ⟨f, List.mem_cons_self f fs, hi, hrest⟩
      · exact Or.inr ⟨e, List.mem_cons_of_mem f he, hrest⟩

/-- Provenance of every id present in the rebuilt index: it belongs to a
stored entry, through a lowercased keyword or a long question word. -/
lemma buildSearchIndex_sound (entries : List FaqEntry) (t : Str) (i : ℕ)
    (h : i ∈ buildSearchIndex entries t) :
    ∃ e ∈ entries, i = e.id ∧
      ((∃ kw ∈ e.keywords, t = lower kw) ∨
        (t ∈ words (lower e.question) ∧ 2 < t.length)) := by
  unfold buildSearchIndex at h
  rcases entriesFold_sound entries _ t i h with h | h
  · exact absurd h (List.not_mem_nil i)
  · exact h

/-! ### C7 -/

/-- C7: immediately after any mutator returns, the index field equals the
full rebuild from the current entry list; and a rebuilt index maps every
lowercased keyword and every lowercased question word of length > 2 of each
stored entry to that entry's id, while every id it holds belongs to a
stored entry. -/
theorem mutators_rebuild_index (m : EnhancedFAQManager)
    (hm : m.searchIndex = buildSearchIndex m.faqData) :
    (∀ q a k, ((addFaq m q a k).2).searchIndex =
        buildSearchIndex ((addFaq m q a k).2).faqData) ∧
    (∀ i q a k, ((updateFaq m i q a k).2).searchIndex =
        buildSearchIndex ((updateFaq m i q a k).2).faqData) ∧
    (∀ i, ((deleteFaq m i).2).searchIndex =
        buildSearchIndex ((deleteFaq m i).2).faqData) ∧
    (∀ entries : List FaqEntry,
      (∀ e ∈ entries, ∀ kw ∈ e.keywords,
        e.id ∈ buildSearchIndex entries (lower kw)) ∧
      (∀ e ∈ entries, ∀ w ∈ words (lower e.question), 2 < w.length →
        e.id ∈ buildSearchIndex entries w) ∧
      (∀ (t : Str) (i : ℕ), i ∈ buildSearchIndex entries t →
        ∃ e ∈ entries, i = e.id)) := by
  refine ⟨fun q a k => rfl, ?_, ?_, ?_⟩
  · intro i q a k
    unfold updateFaq
    cases hf : getFaqById m.faqData i with
    | none => exact hm
    | some e => rfl
  · intro i
    unfold deleteFaq
    cases hf : getFaqById m.faqData i with
    | none => exact hm
    | some e => rfl
  · intro entries
    refine ⟨?_, ?_, ?_⟩
    · intro e he kw hkw
      exact entriesFold_adds_kw entries _ e kw he hkw
    · intro e he w hw hlen
      exact entriesFold_adds_qw entries _ e w he hw hlen
    · intro t i hi
      obtain ⟨e, he, hid, _⟩ := buildSearchIndex_sound entries t i hi
      exact ⟨e, he, hid⟩

/-- C7 witness: the invariant evaluated through a concrete delete. -/
theorem mutators_rebuild_index_witness :
    ((deleteFaq mgrAB 1).2).searchIndex =
      buildSearchIndex ((deleteFaq mgrAB 1).2).faqData :=
  (mutators_rebuild_index mgrAB rfl).2.2.1 1

/-! ### C9 -/

/-- C9 (amended): a query word of length at most 2 can never match a
question-word token (those all have length > 2); provided additionally that
no stored entry has a lowercased keyword of length at most 2 — keywords are
indexed whole, without the length filter — Tier 2 returns nothing on a
query of one- or two-letter words and `search` reduces to Tier 1 followed
by Tier 3. -/
theorem shortWords_no_tier2 (m : EnhancedFAQManager)
    (hidx : m.searchIndex = buildSearchIndex m.faqData)
    (hkw : ∀ e ∈ m.faqData, ∀ kw ∈ e.keywords, 2 < (lower kw).length) :
    (∀ qws : List Str, (∀ w ∈ qws, w.length ≤ 2) →
      findByKeywords m.faqData m.searchIndex qws = none) ∧
    (∀ (ratioFn : Str → Str → ℚ) (q : Str), q ≠ [] →
      (∀ w ∈ words (strip (lower q)), w.length ≤ 2) →
      searchFaq ratioFn m q =
        (match findExactMatch m.faqData (strip (lower q)) with
          | some e => some e
          | none => findBySimilarity ratioFn m.faqData (strip (lower q))
              (words (strip (lower q))))) := by
  have hempty : ∀ w : Str, w.length ≤ 2 → m.searchIndex w = [] := by
    intro w hw
    rw [hidx]
    by_contra hne
    obtain ⟨i, hi⟩ := List.exists_mem_of_ne_nil _ hne
    obtain ⟨e, he, _, hsrc⟩ := buildSearchIndex_sound m.faqData w i hi
    rcases hsrc with ⟨kw, hkwm, rfl⟩ | ⟨_, hlen⟩
    · exact absurd hw (not_le.2 (hkw e he kw hkwm))
    · exact absurd hw (not_le.2 hlen)
  have hacc : ∀ qws : List Str, (∀ w ∈ qws, w.length ≤ 2) →
      accumulateScores m.searchIndex qws = [] := by
    intro qws
    unfold accumulateScores
    induction qws with
    | nil => intro _; rfl
    | cons w ws ih =>
        intro hqws
        simp only [List.foldl_cons]
        rw [hempty w (hqws w (List.mem_cons_self w ws)), List.foldl_nil]
        exact ih (fun x hx => hqws x (List.mem_cons_of_mem w hx))
  have hfbk : ∀ qws : List Str, (∀ w ∈ qws, w.length ≤ 2) →
      findByKeywords m.faqData m.searchIndex qws = none := by
    intro qws hqws
    unfold findByKeywords
    by_cases hq : qws.isEmpty = true
    · rw [if_pos hq]
    · rw [if_neg hq, hacc qws hqws]
      rfl
  refine ⟨hfbk, ?_⟩
  intro ratioFn q hq hshort
  have hqe : q.isEmpty = false := by
    cases q with
    | nil => exact absurd rfl hq
    | cons c cs => rfl
  cases hdata : m.faqData with
  | nil =>
      simp [searchFaq, hqe, hdata, findExactMatch, findBySimilarity]
  | cons f fs =>
      have hne : m.faqData.isEmpty = false := by rw [hdata]; rfl
      have hkb := hfbk (words (strip (lower q))) hshort
      rw [hdata] at hkb
      simp only [searchFaq, hqe, hne, hdata, Bool.or_self, Bool.false_eq_true,
        if_false]
      cases hex : findExactMatch (f :: fs) (strip (lower q)) with
      | some e => rfl
      | none =>
          rw [hkb]
          simp

/-- C9 (counterexample): the two-letter keyword `"ab"` is indexed whole, so
the two-letter query `"ab"` does get a Tier-2 hit, and `search` answers
through the keyword tier instead of falling through. -/
theorem shortWords_counterexample :
    (∀ w ∈ words (strip (lower (str ("ab")))), w.length ≤ 2) ∧
    findByKeywords mgrKw2.faqData mgrKw2.searchIndex
      (words (strip (lower (str ("ab"))))) = some entKw2 ∧
    searchFaq ratioZero mgrKw2 (str ("ab")) = some entKw2 := by decide

/-- C9 witness: the amended theorem evaluated on the store whose keywords
are all longer than 2. -/
theorem shortWords_no_tier2_witness :
    findByKeywords mgrAB.faqData mgrAB.searchIndex [str ("ab")] = none :=
  (shortWords_no_tier2 mgrAB rfl (by decide)).1 [str ("ab")] (by decide)

/-! ### C6 -/

/-- What a kept similarity pair looks like. -/
lemma simPair_mem {ratioFn : Str → Str → ℚ} {ql : Str} {qws : List Str}
    {e : FaqEntry} {b : FaqEntry × ℚ}
    (h : simPair ratioFn ql qws e = some b) :
    b = (e, totalScore ratioFn ql qws e) ∧
      1/10 < totalScore ratioFn ql qws e := by
  simp only [simPair] at h
  by_cases ht : 1/10 < totalScore ratioFn ql qws e
  · rw [if_pos ht] at h
    exact ⟨(Option.some.inj h).symm, ht⟩
  · rw [if_neg ht] at h
    exact Option.noConfusion h

/-- At a score level above the 0.1 floor, the kept pairs at that level are
exactly the entries at that level, in store order. -/
lemma sims_filter_eq (ratioFn : Str → Str → ℚ) (ql : Str) (qws : List Str)
    (entries : List FaqEntry) (s : ℚ) (hs : 1/10 < s) :
    (entries.filterMap (simPair ratioFn ql qws)).filter
        (fun x => decide (x.2 = s)) =
      (entries.filter (fun e => decide (totalScore ratioFn ql qws e = s))).map
        (fun e => (e, s)) := by
  induction entries with
  | nil => rfl
  | cons e es ih =>
      by_cases ht : 1/10 < totalScore ratioFn ql qws e
      · have hpe : simPair ratioFn ql qws e =
            some (e, totalScore ratioFn ql qws e) := by
          simp only [simPair]
          rw [if_pos ht]
        rw [List.filterMap_cons_some hpe]
        by_cases hts : totalScore ratioFn ql qws e = s
        · simp [List.filter_cons, decide_eq_true hts, hts, ih]
        · simp [List.filter_cons, decide_eq_false hts, ih]
      · have hpe : simPair ratioFn ql qws e = none := by
          simp only [simPair]
          rw [if_neg ht]
        have hts : ¬ (totalScore ratioFn ql qws e = s) := fun hh => ht (hh ▸ hs)
        rw [List.filterMap_cons_none hpe]
        simp [List.filter_cons, decide_eq_false hts, ih]

/-- Inserting a pair does not disturb the subsequence of pairs at any fixed
score level: the pairs it jumps over all score strictly above it. -/
lemma filter_orderedInsert (s : ℚ) (a : FaqEntry × ℚ)
    (l : List (FaqEntry × ℚ)) :
    (List.orderedInsert scoreGE a l).filter (fun x => decide (x.2 = s)) =
      (a :: l).filter (fun x => decide (x.2 = s)) := by
  induction l with
  | nil => rfl
  | cons y ys ih =>
      rw [List.orderedInsert]
      by_cases hr : scoreGE a y
      · rw [if_pos hr]
      · rw [if_neg hr]
        have hlt : a.2 < y.2 := lt_of_not_le hr
        by_cases hy : y.2 = s
        · have ha : ¬ (a.2 = s) := by
            intro ha
            rw [ha, hy] at hlt
            exact lt_irrefl s hlt
          simp [List.filter_cons, decide_eq_true hy, decide_eq_false ha, ih]
        · simp [List.filter_cons, decide_eq_false hy, ih]

/-- The stable sort keeps the subsequence at every score level unchanged. -/
lemma filter_insertionSort (s : ℚ) (l : List (FaqEntry × ℚ)) :
    (l.insertionSort scoreGE).filter (fun x => decide (x.2 = s)) =
      l.filter (fun x => decide (x.2 = s)) := by
  induction l with
  | nil => rfl
  | cons x xs ih =>
      rw [List.insertionSort, filter_orderedInsert, List.filter_cons,
        List.filter_cons, ih]

/-- Behaviour of the sort-take-project pipeline of
`search_similar_questions` over any pair list produced from `entries`. -/
lemma pipeline_spec (tS : FaqEntry → ℚ) (entries : List FaqEntry)
    (sims : List (FaqEntry × ℚ)) (limit : ℕ)
    (hmem : ∀ x ∈ sims, x.1 ∈ entries ∧ x.2 = tS x.1 ∧ 1/10 < x.2)
    (hfil : ∀ s : ℚ, 1/10 < s →
      sims.filter (fun x => decide (x.2 = s)) =
        (entries.filter (fun e => decide (tS e = s))).map (fun e => (e, s))) :
    (((sims.insertionSort scoreGE).take limit).map Prod.fst).length ≤ limit ∧
    (∀ e ∈ ((sims.insertionSort scoreGE).take limit).map Prod.fst,
      1/10 < tS e) ∧
    (((sims.insertionSort scoreGE).take limit).map Prod.fst).Pairwise
      (fun e1 e2 => tS e2 ≤ tS e1) ∧
    (∀ s : ℚ, List.Sublist
      ((((sims.insertionSort scoreGE).take limit).map Prod.fst).filter
        (fun e => decide (tS e = s)))
      (entries.filter (fun e => decide (tS e = s)))) := by
  have hperm : List.Perm (sims.insertionSort scoreGE) sims :=
    List.perm_insertionSort scoreGE sims
  have hsub : List.Sublist ((sims.insertionSort scoreGE).take limit)
      (sims.insertionSort scoreGE) :=
    List.take_sublist limit _
  have hmem_taken : ∀ x ∈ (sims.insertionSort scoreGE).take limit,
      x.1 ∈ entries ∧ x.2 = tS x.1 ∧ 1/10 < x.2 :=
    fun x hx => hmem x (hperm.subset (hsub.subset hx))
  refine ⟨?_, ?_, ?_, ?_⟩
  · rw [List.length_map, List.length_take]
    exact min_le_left _ _
  · intro e he
    obtain ⟨x, hx, rfl⟩ := List.mem_map.1 he
    obtain ⟨_, hx2, hx3⟩ := hmem_taken x hx
    rw [← hx2]
    exact hx3
  · have hsort : (sims.insertionSort scoreGE).Pairwise scoreGE :=
      List.sorted_insertionSort scoreGE sims
    have htk : ((sims.insertionSort scoreGE).take limit).Pairwise scoreGE :=
      List.Pairwise.sublist hsub hsort
    rw [List.pairwise_map]
    refine List.Pairwise.imp_of_mem ?_ htk
    intro a b ha hb hr
    obtain ⟨_, ha2, _⟩ := hmem_taken a ha
    obtain ⟨_, hb2, _⟩ := hmem_taken b hb
    rw [← ha2, ← hb2]
    exact hr
  · intro s
    rw [List.filter_map]
    have hcong : ((sims.insertionSort scoreGE).take limit).filter
        ((fun e => decide (tS e = s)) ∘ Prod.fst) =
        ((sims.insertionSort scoreGE).take limit).filter
          (fun x => decide (x.2 = s)) := by
      apply List.filter_congr
      intro x hx
      obtain ⟨_, hx2, _⟩ := hmem_taken x hx
      simp only [Function.comp_apply]
      rw [← hx2]
    rw [hcong]
    by_cases hs : 1/10 < s
    · have h4 : List.Sublist
          ((((sims.insertionSort scoreGE).take limit).filter
            (fun x => decide (x.2 = s))).map Prod.fst)
          (((sims.insertionSort scoreGE).filter
            (fun x => decide (x.2 = s))).map Prod.fst) :=
        List.Sublist.map Prod.fst (List.Sublist.filter _ hsub)
      rw [filter_insertionSort, hfil s hs, List.map_map] at h4
      rw [show (Prod.fst ∘ fun e : FaqEntry => (e, s)) = id from rfl,
        List.map_id] at h4
      exact h4
    · have hnil : ((sims.insertionSort scoreGE).take limit).filter
          (fun x => decide (x.2 = s)) = [] := by
        rw [List.filter_eq_nil_iff]
        intro x hx
        obtain ⟨_, _, hx3⟩ := hmem_taken x hx
        simp only [decide_eq_true_eq]
        intro heq
        exact hs (heq ▸ hx3)
      rw [hnil]
      exact List.nil_sublist _

/-- C6: `similar(query, k)` returns at most `k` entries, each scoring
strictly above 0.1 under the Tier-3 formula; the results are sorted by
non-increasing score, and within any fixed score the returned entries form
a subsequence of the Entry Store order. -/
theorem searchSimilar_spec (ratioFn : Str → Str → ℚ) (entries : List FaqEntry)
    (query : Str) (limit : ℕ) :
    (searchSimilarQuestions ratioFn entries query limit).length ≤ limit ∧
    (∀ e ∈ searchSimilarQuestions ratioFn entries query limit,
      1/10 < totalScore ratioFn (lower query) (words (lower query)) e) ∧
    (searchSimilarQuestions ratioFn entries query limit).Pairwise
      (fun e1 e2 =>
        totalScore ratioFn (lower query) (words (lower query)) e2 ≤
          totalScore ratioFn (lower query) (words (lower query)) e1) ∧
    (∀ s : ℚ, List.Sublist
      ((searchSimilarQuestions ratioFn entries query limit).filter
        (fun e => decide (totalScore ratioFn (lower query)
          (words (lower query)) e = s)))
      (entries.filter (fun e => decide (totalScore ratioFn (lower query)
        (words (lower query)) e = s)))) := by
  have hmem : ∀ x ∈ entries.filterMap
      (simPair ratioFn (lower query) (words (lower query))),
      x.1 ∈ entries ∧
        x.2 = totalScore ratioFn (lower query) (words (lower query)) x.1 ∧
        1/10 < x.2 := by
    intro x hx
    obtain ⟨a, ha, hfa⟩ := List.mem_filterMap.1 hx
    obtain ⟨rfl, ht⟩ := simPair_mem hfa
    exact ⟨ha, rfl, ht⟩
  have hfil : ∀ s : ℚ, 1/10 < s →
      (entries.filterMap
          (simPair ratioFn (lower query) (words (lower query)))).filter
        (fun x => decide (x.2 = s)) =
      (entries.filter (fun e => decide (totalScore ratioFn (lower query)
        (words (lower query)) e = s))).map (fun e => (e, s)) :=
    fun s hs => sims_filter_eq ratioFn (lower query) (words (lower query))
      entries s hs
  exact pipeline_spec
    (totalScore ratioFn (lower query) (words (lower query))) entries
    (entries.filterMap (simPair ratioFn (lower query) (words (lower query))))
    limit hmem hfil
